import Mathlib

/-!
Shallow embedding of the native-vector-store engine
(src/src/vector_store.h, src/src/vector_store_improved.cpp,
src/src/vector_store_loader.cpp) and proofs about the frozen claims.

Modelling conventions:
* machine floats are modelled as elements of a linear ordered field
  (instantiated at ℚ for computations and at ℝ where the square root of
  `finalize` is needed); the float literal `1e-10f` is modelled as the
  exact value `1 / 10 ^ 10`;
* byte strings (`id`, `text`, raw metadata JSON) are lists of naturals;
* the pre-sized entry table (`entries_.resize(1'000'000)`) is a total
  function `Nat → Entry`, default-constructed entries everywhere until
  `add_document` writes a slot;
* the JSON decoder is external (out of scope per the spec): documents
  arrive already decoded as `RawDoc` (id/text bytes, the numeric values
  of `metadata.embedding` in order, and the raw metadata bytes);
* the top-k selection step (`std::partial_sort` in vector_store.h,
  per-thread heaps merged and `std::sort`ed in vector_store_improved.cpp)
  is modelled by the relation `TopKOf`, the postcondition both
  implementations guarantee: the result is the first `k` of a permutation
  of the scored list, sorted non-strictly descending by score, and every
  dropped element scores no higher than every kept one.  The order of
  equal scores is not determined by either implementation.
-/

namespace NVS

/-- `ArenaAllocator::CHUNK_SIZE = 1 << 26` (64 MiB). -/
def CHUNK_SIZE : Nat := 2 ^ 26

/-- `ArenaAllocator::MAX_ALIGN = 4096` (vector_store_improved.h). -/
def MAX_ALIGN : Nat := 4096

/-- `entries_.resize(1'000'000)` — the pre-sized entry-table capacity. -/
def TABLE_CAPACITY : Nat := 1000000

/-- The current arena chunk: base address of `chunk->data` and the bump
`offset`.  `alignas(64)` on `Chunk` guarantees `base % 64 = 0` for chunks
the real allocator creates; theorems carry that as a hypothesis. -/
structure Arena where
  base : Nat
  off : Nat
deriving DecidableEq

/-- The padding computation of `ArenaAllocator::allocate`:
`misalignment = (uintptr_t)ptr & (align - 1);
 padding = misalignment ? (align - misalignment) : 0`. -/
def alignPad (p align : Nat) : Nat :=
  let mis := p &&& (align - 1)
  if mis = 0 then 0 else align - mis

/-- One attempt of the allocation loop on a chunk with data address `base`
and current offset `off`: compute the padded offset and the would-be new
offset; if `new_offset > CHUNK_SIZE` the attempt fails (the code moves to
a new chunk), otherwise it returns the pointer `chunk.data + aligned_offset`
and the new offset. -/
def allocAttempt (base off size align : Nat) : Option (Nat × Nat) :=
  let padding := alignPad (base + off) align
  let alignedOff := off + padding
  let newOff := alignedOff + size
  if CHUNK_SIZE < newOff then none else some (base + alignedOff, newOff)

/-- The debug-build precondition `assert(align > 0 && (align & (align - 1)) == 0)`
of `ArenaAllocator::allocate`.  It is an assertion, not an error return:
with assertions disabled the function proceeds for any align. -/
def alignAssertOk (align : Nat) : Prop :=
  0 < align ∧ align &&& (align - 1) = 0

/-- One iteration of the allocation loop on the chunk at `base`/`off`:
on a successful attempt the pointer is returned and the chunk's offset
advances; on overflow the loop continues with `next` (the code moves
`current_` to the next chunk and retries). -/
def allocStep (base off size align : Nat) (next : Option (Nat × Arena)) :
    Option (Nat × Arena) :=
  match allocAttempt base off size align with
  | some (p, o) => some (p, ⟨base, o⟩)
  | none => next

/-- `ArenaAllocator::allocate(size, align)` in sequential (release) semantics.
The two early returns (`align > MAX_ALIGN`, `size > CHUNK_SIZE`) are exactly
the code's null returns.  The retry loop is unfolded: one attempt on the
current chunk, and on overflow one attempt on a freshly created chunk with
base address `freshBase` and offset 0.  (The code retries further on new
chunks; for every alignment at most 64 — in particular the defaults 64 and
`alignof(float)` used by `add_document` — the fresh-chunk attempt always
succeeds for in-range sizes, so the model is exact there.) -/
def allocate (a : Arena) (size align freshBase : Nat) : Option (Nat × Arena) :=
  if MAX_ALIGN < align then none
  else if CHUNK_SIZE < size then none
  else allocStep a.base a.off size align
    (allocStep freshBase 0 size align none)

/-- `VectorStore::Phase` — `LOADING` then `SERVING` (the improved revision
encodes the same two states in the `is_finalized_` flag). -/
inductive Phase
  | LOADING
  | SERVING
deriving DecidableEq

/-- The `simdjson::error_code` values the store itself produces. -/
inductive ErrorCode
  | SUCCESS
  | CAPACITY
  | MEMALLOC
  | INCORRECT_TYPE
deriving DecidableEq

/-- A store row (`VectorStore::Entry`): the embedding pointer (`none` models
the null pointer of a default-constructed entry) and the byte region of the
entry's single arena allocation that follows the embedding, together with
the (offset, length) views the `Document` string_views hold into it. -/
structure Entry (α : Type) where
  emb : Option (List α)
  bytes : List Nat
  idOff : Nat
  idLen : Nat
  textOff : Nat
  textLen : Nat
  metaOff : Nat
  metaLen : Nat
deriving DecidableEq

/-- A default-constructed `Entry`: null embedding pointer, empty views. -/
def defaultEntry (α : Type) : Entry α :=
  ⟨none, [], 0, 0, 0, 0, 0, 0⟩

/-- The `Document` view returned to callers: three byte slices. -/
structure Document where
  id : List Nat
  text : List Nat
  metadata_json : List Nat
deriving DecidableEq

/-- A decoded input document: `id` and `text` byte strings, the numeric
elements of `metadata.embedding` in array order, and the raw bytes of the
`metadata` sub-JSON. -/
structure RawDoc (α : Type) where
  id : List Nat
  text : List Nat
  embValues : List α
  metaRaw : List Nat

/-- The `VectorStore`: fixed dimension, the pre-sized entry table, the
published count and the phase flag. -/
structure Store (α : Type) where
  dim : Nat
  table : Nat → Entry α
  count : Nat
  phase : Phase

/-- `VectorStore::VectorStore(dim)`: empty table, count 0, LOADING. -/
def initStore (α : Type) (dim : Nat) : Store α :=
  ⟨dim, fun _ => defaultEntry α, 0, Phase.LOADING⟩

/-- Result of the embedding-array parse loop. -/
inductive ParseRes (α : Type)
  | ok (vals : List α)
  | err (e : ErrorCode)
deriving DecidableEq

/-- The `for (auto value_result : emb_array)` loop of `add_document` /
`parse_embedding`, with `i` elements already consumed: a further element
when `i ≥ dim` fails with `CAPACITY`; end of array with `i ≠ dim` fails
with `INCORRECT_TYPE`; otherwise the collected values are returned. -/
def parseEmbLoop {α : Type} (dim : Nat) (vals : List α) (i : Nat) : ParseRes α :=
  match vals with
  | [] => if i = dim then .ok [] else .err .INCORRECT_TYPE
  | v :: rest =>
    if dim ≤ i then .err .CAPACITY
    else
      match parseEmbLoop dim rest (i + 1) with
      | .ok l => .ok (v :: l)
      | .err e => .err e

/-- `VectorStore::parse_embedding` on the decoded numeric values. -/
def parse_embedding {α : Type} (dim : Nat) (vals : List α) : ParseRes α :=
  parseEmbLoop dim vals 0

/-- The byte region of an entry's allocation after the embedding:
`[id\0][text\0][meta\0]` — each string copied NUL-terminated. -/
def packBytes (id text meta : List Nat) : List Nat :=
  id ++ 0 :: (text ++ 0 :: (meta ++ [0]))

/-- Reading `len` bytes at byte offset `off` of a region (a string_view). -/
def sliceBytes (l : List Nat) (off len : Nat) : List Nat :=
  (l.drop off).take len

/-- The entry `add_document` publishes: embedding values plus the packed
byte region, with the offsets the code derives from
`id_ptr = base + emb_size`, `text_ptr = id_ptr + id_size`,
`meta_ptr = text_ptr + text_size` (taken relative to the end of the
embedding). -/
def mkEntry {α : Type} (emb : List α) (id text meta : List Nat) : Entry α :=
  { emb := some emb
    bytes := packBytes id text meta
    idOff := 0
    idLen := id.length
    textOff := id.length + 1
    textLen := text.length
    metaOff := id.length + 1 + (text.length + 1)
    metaLen := meta.length }

/-- `VectorStore::add_document` (sequential semantics).  Phase check, then
the embedding parse, then one arena allocation of
`dim*4 + |id|+1 + |text|+1 + |meta|+1` bytes (in sequential use with the
default alignment this fails exactly when the total exceeds `CHUNK_SIZE`),
then index reservation with the table-capacity check, then the single
publishing write of the entry. -/
def add_document {α : Type} (s : Store α) (d : RawDoc α) : Store α × ErrorCode :=
  if s.phase ≠ Phase.LOADING then (s, .INCORRECT_TYPE)
  else
    match parse_embedding s.dim d.embValues with
    | .err e => (s, e)
    | .ok emb =>
      if CHUNK_SIZE < s.dim * 4 + (d.id.length + 1) + (d.text.length + 1) +
          (d.metaRaw.length + 1) then (s, .MEMALLOC)
      else if TABLE_CAPACITY ≤ s.count then (s, .CAPACITY)
      else
        ({ s with
            table := fun j => if j = s.count then
                mkEntry emb d.id d.text d.metaRaw
              else s.table j,
            count := s.count + 1 }, .SUCCESS)

section Field

variable {α : Type} [LinearOrderedField α]

/-- `sum += emb[j] * emb[j]` — the squared L2 norm. -/
def sumSq (v : List α) : α := (v.map (fun x => x * x)).sum

/-- The normalization guard `1e-10f`, modelled exactly. -/
def normEps : α := 1 / 10 ^ 10

/-- One embedding's treatment inside `normalize_all_embeddings` /
`finalize`: when `sum > 1e-10`, every element is multiplied by
`inv_norm = 1.0f / sqrt(sum)`; otherwise the vector is left as-is. -/
def normalizeVec (sqrt : α → α) (v : List α) : List α :=
  let sum := sumSq v
  if normEps < sum then v.map (fun x => x * (1 / sqrt sum)) else v

/-- `VectorStore::finalize` (the guarded revision of
vector_store_improved.cpp: a second call observes the SERVING flag and
does nothing).  Otherwise every entry `i < count` with a non-null
embedding pointer is normalized and the phase flips to SERVING. -/
def finalize (sqrt : α → α) (s : Store α) : Store α :=
  if s.phase = Phase.SERVING then s
  else
    { s with
      table := fun i =>
        if i < s.count then
          let e := s.table i
          { e with emb := e.emb.map (normalizeVec sqrt) }
        else s.table i,
      phase := Phase.SERVING }

/-- `score += emb[j] * query[j]` for `j < dim`. -/
def dotProd (v q : List α) : α := (List.zipWith (fun a b => a * b) v q).sum

/-- The score the scan computes for index `i` (a null embedding pointer
contributes an empty product; well-formed stores never hit that case). -/
def scoreAt (s : Store α) (q : List α) (i : Nat) : α :=
  dotProd ((s.table i).emb.getD []) q

/-- The scored index list `[(score_0, 0), …, (score_{n-1}, n-1)]` the scan
produces before top-k selection. -/
def scoresList (s : Store α) (q : List α) : List (α × Nat) :=
  (List.range s.count).map (fun i => (scoreAt s q i, i))

/-- Sorted non-strictly descending by score — the guarantee of sorting
with the comparator `a.first > b.first`. -/
def SortedDesc (r : List (α × Nat)) : Prop :=
  r.Pairwise (fun a b => b.1 ≤ a.1)

/-- The ordering the claim asserts for results: strictly descending by
score, ties broken by ascending index. -/
def ClaimOrder (a b : α × Nat) : Prop :=
  b.1 < a.1 ∨ (a.1 = b.1 ∧ a.2 < b.2)

/-- The top-k selection contract guaranteed by `std::partial_sort` with
comparator `a.first > b.first` (vector_store.h) and equally by the
per-thread bounded min-heaps merged and sorted descending
(vector_store_improved.cpp): the result is the kept prefix of some
permutation of the scored list, sorted descending, and no dropped element
outscores a kept one.  Equal-score order is not determined. -/
def TopKOf (l : List (α × Nat)) (k : Nat) (r : List (α × Nat)) : Prop :=
  r.length = k ∧ SortedDesc r ∧
  ∃ rest, (r ++ rest).Perm l ∧ ∀ a ∈ r, ∀ b ∈ rest, b.1 ≤ a.1

/-- `VectorStore::search(query, k)`: empty before SERVING, empty when
`count = 0` or `k = 0`, otherwise a top-`min k count` selection of the
scored list. -/
def SearchResult (s : Store α) (q : List α) (k : Nat) (r : List (α × Nat)) :
    Prop :=
  if s.phase ≠ Phase.SERVING then r = []
  else if s.count = 0 ∨ k = 0 then r = []
  else TopKOf (scoresList s q) (min k s.count) r

end Field

/-- `VectorStore::get_entry(idx)` — `entries_[idx]`, no bounds or phase
check. -/
def get_entry {α : Type} (s : Store α) (i : Nat) : Entry α := s.table i

/-- The `Document` view of an entry (its three string_views). -/
def docOf {α : Type} (e : Entry α) : Document :=
  ⟨sliceBytes e.bytes e.idOff e.idLen,
   sliceBytes e.bytes e.textOff e.textLen,
   sliceBytes e.bytes e.metaOff e.metaLen⟩

/-- `VectorStore::get_document(index)` — `entries_[index].doc`. -/
def get_document {α : Type} (s : Store α) (i : Nat) : Document :=
  docOf (s.table i)

/-- `VectorStore::size()` — the published count. -/
def size {α : Type} (s : Store α) : Nat := s.count

/-- `VectorStore::is_finalized()`. -/
def is_finalized {α : Type} (s : Store α) : Bool :=
  match s.phase with
  | Phase.SERVING => true
  | Phase.LOADING => false

/-- `entry.path().extension() == ".json"` of the loader's enumeration. -/
def isJsonFile (name : String) : Bool := name.endsWith ".json"

/-- A directory entry as the loader sees it: a file name and the documents
its JSON content decodes to (the decoder is external). -/
structure JsonFile (α : Type) where
  name : String
  docs : List (RawDoc α)

/-- Inserting a batch of documents in order, keeping the store of each
step (failed adds leave the store unchanged and are logged). -/
def addAll {α : Type} (s : Store α) (docs : List (RawDoc α)) : Store α :=
  docs.foldl (fun t d => (add_document t d).1) s

/-- `VectorStoreLoader::loadDirectory` (vector_store_loader.cpp): a no-op
when the store is already finalized; with no `.json` files it finalizes
the store and returns; otherwise the producer/worker pipeline adds every
decoded document in some interleaving (modelled as a permutation of all
documents) and then finalizes exactly once. -/
def LoadDirectory {α : Type} [LinearOrderedField α] (sqrt : α → α)
    (s : Store α) (files : List (JsonFile α)) (s' : Store α) : Prop :=
  if is_finalized s then s' = s
  else if (files.filter (fun f => isJsonFile f.name)).isEmpty then
    s' = finalize sqrt s
  else ∃ docs : List (RawDoc α),
    docs.Perm ((files.filter (fun f => isJsonFile f.name)).map
      (fun f => f.docs)).flatten ∧
    s' = finalize sqrt (addAll s docs)

/-- Table slots at or above `count` still hold the default-constructed
entry (true of every reachable store; `add_document` writes only the
reserved slot, `finalize` touches only slots below `count`). -/
def UnwrittenDefault {α : Type} (s : Store α) : Prop :=
  ∀ i, s.count ≤ i → s.table i = defaultEntry α

/-- A serving-phase entry whose (already normalized) embedding is `[1]`. -/
def unitEntry : Entry ℚ :=
  { defaultEntry ℚ with emb := some [1] }

/-- A concrete finalized store over ℚ with `n` identical unit embeddings of
dimension 1 — the tie-breaking scenario of the spec's seed scenario 2. -/
def qStore (n : Nat) : Store ℚ :=
  ⟨1, fun _ => unitEntry, n, Phase.SERVING⟩

/-- A concrete decoded document for witnesses: id `"a"`, text `"b"`,
embedding `[1]`, raw metadata `"c"`. -/
def dWit : RawDoc ℚ :=
  ⟨[97], [98], [1], [99]⟩

/-- A decoded document with a 2-element embedding (one too many for
dimension 1). -/
def dLong : RawDoc ℚ :=
  ⟨[97], [98], [1, 2], [99]⟩

/-- A decoded document with an empty embedding (one too few for
dimension 1). -/
def dShort : RawDoc ℚ :=
  ⟨[97], [98], [], [99]⟩

/-! ## Supporting lemmas -/

theorem parseEmbLoop_too_many {α : Type} (dim : Nat) (vals : List α) :
    ∀ i, i ≤ dim → dim < i + vals.length →
      parseEmbLoop dim vals i = ParseRes.err ErrorCode.CAPACITY := by
  induction vals with
  | nil => intro i h1 h2; simp at h2; omega
  | cons v rest ih =>
    intro i h1 h2
    unfold parseEmbLoop
    by_cases h : dim ≤ i
    · simp [h]
    · have hr := ih (i + 1) (by omega) (by simp at h2 ⊢; omega)
      simp [h, hr]

theorem parseEmbLoop_too_few {α : Type} (dim : Nat) (vals : List α) :
    ∀ i, i + vals.length < dim →
      parseEmbLoop dim vals i = ParseRes.err ErrorCode.INCORRECT_TYPE := by
  induction vals with
  | nil =>
    intro i h
    unfold parseEmbLoop
    have hne : i ≠ dim := by simp at h; omega
    simp [hne]
  | cons v rest ih =>
    intro i h
    unfold parseEmbLoop
    have h1 : ¬ dim ≤ i := by simp at h; omega
    have hr := ih (i + 1) (by simp at h; omega)
    simp [h1, hr]

theorem parseEmbLoop_exact {α : Type} (dim : Nat) (vals : List α) :
    ∀ i, i + vals.length = dim → parseEmbLoop dim vals i = ParseRes.ok vals := by
  induction vals with
  | nil => intro i h; simp at h; unfold parseEmbLoop; simp [h]
  | cons v rest ih =>
    intro i h
    unfold parseEmbLoop
    have h1 : ¬ dim ≤ i := by simp at h; omega
    have hr := ih (i + 1) (by simp at h; omega)
    simp [h1, hr]

theorem parse_embedding_ok {α : Type} (dim : Nat) (vals l : List α)
    (h : parse_embedding dim vals = ParseRes.ok l) :
    l = vals ∧ vals.length = dim := by
  rcases Nat.lt_trichotomy vals.length dim with hlt | heq | hgt
  · rw [parse_embedding, parseEmbLoop_too_few dim vals 0 (by omega)] at h
    exact absurd h (by simp)
  · rw [parse_embedding, parseEmbLoop_exact dim vals 0 (by omega)] at h
    exact ⟨(ParseRes.ok.injEq _ _ ▸ h).symm, heq⟩
  · rw [parse_embedding, parseEmbLoop_too_many dim vals 0 (Nat.zero_le _)
      (by omega)] at h
    exact absurd h (by simp)

theorem sumSq_cons {α : Type} [LinearOrderedField α] (x : α) (t : List α) :
    sumSq (x :: t) = x * x + sumSq t := by
  simp [sumSq]

theorem sumSq_nonneg {α : Type} [LinearOrderedField α] (v : List α) :
    0 ≤ sumSq v := by
  induction v with
  | nil => simp [sumSq]
  | cons x t ih =>
    rw [sumSq_cons]
    exact add_nonneg (mul_self_nonneg x) ih

theorem sumSq_map_mul {α : Type} [LinearOrderedField α] (v : List α) (c : α) :
    sumSq (v.map (fun x => x * c)) = sumSq v * (c * c) := by
  induction v with
  | nil => simp [sumSq]
  | cons x t ih =>
    rw [List.map_cons, sumSq_cons, sumSq_cons, ih]
    ring

theorem finalize_phase {α : Type} [LinearOrderedField α] (sq : α → α)
    (s : Store α) : (finalize sq s).phase = Phase.SERVING := by
  unfold finalize
  by_cases h : s.phase = Phase.SERVING
  · simp [h]
  · simp [h]

theorem finalize_of_serving {α : Type} [LinearOrderedField α] (sq : α → α)
    (s : Store α) (h : s.phase = Phase.SERVING) : finalize sq s = s := by
  unfold finalize
  simp [h]

theorem alignPad_mod (x k : Nat) : (x + alignPad x (2 ^ k)) % 2 ^ k = 0 := by
  have hm : x &&& (2 ^ k - 1) = x % 2 ^ k := Nat.and_pow_two_sub_one_eq_mod x k
  have hpos : 0 < 2 ^ k := Nat.pos_pow_of_pos k (by omega)
  have hlt : x % 2 ^ k < 2 ^ k := Nat.mod_lt _ hpos
  have hdm : 2 ^ k * (x / 2 ^ k) + x % 2 ^ k = x := Nat.div_add_mod x (2 ^ k)
  simp only [alignPad, hm]
  by_cases h0 : x % 2 ^ k = 0
  · simp [h0]
  · rw [if_neg h0]
    have hx : x + (2 ^ k - x % 2 ^ k) = 2 ^ k * (x / 2 ^ k + 1) := by
      rw [Nat.mul_add, Nat.mul_one]
      omega
    rw [hx]
    exact Nat.mul_mod_right _ _

theorem allocAttempt_some (base off size align p o : Nat)
    (h : allocAttempt base off size align = some (p, o)) :
    p = base + off + alignPad (base + off) align := by
  simp only [allocAttempt] at h
  split at h
  · exact absurd h (by simp)
  · injection h with h1
    have h2 := congrArg Prod.fst h1
    simp at h2
    omega

theorem allocStep_some (base off size align p o : Nat)
    (next : Option (Nat × Arena))
    (h : allocAttempt base off size align = some (p, o)) :
    allocStep base off size align next = some (p, ⟨base, o⟩) := by
  unfold allocStep
  rw [h]

theorem allocStep_inv (base off size align p : Nat) (a' : Arena)
    (next : Option (Nat × Arena))
    (h : allocStep base off size align next = some (p, a')) :
    (∃ o, allocAttempt base off size align = some (p, o)) ∨
      next = some (p, a') := by
  unfold allocStep at h
  split at h
  · rename_i p1 o1 heq
    injection h with h1
    have hp := congrArg Prod.fst h1
    simp only at hp
    exact Or.inl ⟨o1, by rw [heq, hp]⟩
  · exact Or.inr h

theorem add_document_success {α : Type} (s : Store α) (d : RawDoc α)
    (s' : Store α) (h : add_document s d = (s', ErrorCode.SUCCESS)) :
    s.phase = Phase.LOADING ∧ d.embValues.length = s.dim ∧
    s.count < TABLE_CAPACITY ∧
    s' = { s with
            table := fun j => if j = s.count then
                mkEntry d.embValues d.id d.text d.metaRaw
              else s.table j,
            count := s.count + 1 } := by
  unfold add_document at h
  split at h
  · exact absurd (congrArg Prod.snd h) (by simp)
  · rename_i hph
    split at h
    · exact absurd (congrArg Prod.snd h) (by
        rename_i e heq
        rcases Nat.lt_trichotomy d.embValues.length s.dim with hlt | hseq | hgt
        · rw [parse_embedding,
            parseEmbLoop_too_few s.dim d.embValues 0 (by omega)] at heq
          injection heq with he
          simp [← he]
        · rw [parse_embedding,
            parseEmbLoop_exact s.dim d.embValues 0 (by omega)] at heq
          exact absurd heq (by simp)
        · rw [parse_embedding, parseEmbLoop_too_many s.dim d.embValues 0
            (Nat.zero_le _) (by omega)] at heq
          injection heq with he
          simp [← he])
    · rename_i emb heq
      obtain ⟨hev, hlen⟩ := parse_embedding_ok s.dim d.embValues emb heq
      subst hev
      split at h
      · exact absurd (congrArg Prod.snd h) (by simp)
      · split at h
        · exact absurd (congrArg Prod.snd h) (by simp)
        · rename_i hcap
          refine ⟨by simpa using hph, hlen, by omega, ?_⟩
          exact (congrArg Prod.fst h).symm

theorem drop_append_shift {β : Type} :
    ∀ (a : List β) (x : β) (r : List β) (n : Nat),
      (a ++ x :: r).drop (a.length + 1 + n) = r.drop n := by
  intro a
  induction a with
  | nil => intro x r n; rw [Nat.add_comm]; simp
  | cons y a ih =>
    intro x r n
    have : (y :: a).length + 1 + n = (a.length + 1 + n) + 1 := by
      simp; omega
    rw [this]
    simpa using ih x r n

theorem sliceBytes_head (a r : List Nat) : sliceBytes (a ++ r) 0 a.length = a := by
  simp [sliceBytes]

theorem sliceBytes_shift (a : List Nat) (x : Nat) (r : List Nat) (n len : Nat) :
    sliceBytes (a ++ x :: r) (a.length + 1 + n) len = sliceBytes r n len := by
  simp only [sliceBytes, drop_append_shift]

theorem docOf_mkEntry {α : Type} (emb : List α) (id text meta : List Nat) :
    docOf (mkEntry emb id text meta) = ⟨id, text, meta⟩ := by
  unfold docOf mkEntry packBytes
  rw [Document.mk.injEq]
  refine ⟨?_, ?_, ?_⟩
  · exact sliceBytes_head id _
  · have h := sliceBytes_shift id 0 (text ++ 0 :: (meta ++ [0])) 0 text.length
    simp only [Nat.add_zero] at h
    rw [h]
    exact sliceBytes_head text _
  · have h := sliceBytes_shift id 0 (text ++ 0 :: (meta ++ [0]))
      (text.length + 1) meta.length
    simp only [Nat.add_zero] at h
    rw [h]
    have h2 := sliceBytes_shift text 0 (meta ++ [0]) 0 meta.length
    simp only [Nat.add_zero] at h2
    rw [h2]
    exact sliceBytes_head meta _

theorem finalize_table_lt {α : Type} [LinearOrderedField α] (sq : α → α)
    (s : Store α) (i : Nat) (hph : s.phase ≠ Phase.SERVING)
    (hi : i < s.count) :
    (finalize sq s).table i =
      { s.table i with emb := (s.table i).emb.map (normalizeVec sq) } := by
  unfold finalize
  rw [if_neg hph]
  simp [hi]

theorem finalize_table_ge {α : Type} [LinearOrderedField α] (sq : α → α)
    (s : Store α) (j : Nat) (hj : s.count ≤ j) :
    (finalize sq s).table j = s.table j := by
  unfold finalize
  by_cases hph : s.phase = Phase.SERVING
  · rw [if_pos hph]
  · rw [if_neg hph]
    simp [Nat.not_lt.mpr hj]

/-! ## Claim theorems -/

/-- C1 (amended): on a finalized store, every list `search(query, k)` can
return has exactly `min k count` pairs, is sorted non-strictly descending
by score, carries pairwise-distinct indices below `count` each paired with
its scan score, no omitted index outscores a returned pair, and an empty
store or `k = 0` yields the empty list.  (The order of equal scores is not
determined by the code; see the counterexample.) -/
theorem C1_search_contract {α : Type} [LinearOrderedField α] (s : Store α)
    (q : List α) (k : Nat) (r : List (α × Nat))
    (hph : s.phase = Phase.SERVING) (hr : SearchResult s q k r) :
    r.length = min k s.count ∧
    SortedDesc r ∧
    (∀ p ∈ r, p.2 < s.count ∧ p.1 = scoreAt s q p.2) ∧
    (r.map Prod.snd).Nodup ∧
    (∀ p ∈ r, ∀ j, j < s.count → j ∉ r.map Prod.snd → scoreAt s q j ≤ p.1) ∧
    (s.count = 0 ∨ k = 0 → r = []) := by
  unfold SearchResult at hr
  rw [if_neg (by simp [hph])] at hr
  by_cases hz : s.count = 0 ∨ k = 0
  · rw [if_pos hz] at hr
    subst hr
    refine ⟨?_, List.Pairwise.nil, by simp, by simp, by simp, fun _ => rfl⟩
    rcases hz with h | h <;> simp [h]
  · rw [if_neg hz] at hr
    obtain ⟨hlen, hsort, rest, hperm, hbd⟩ := hr
    have hmem : ∀ p ∈ r, p ∈ scoresList s q := fun p hp =>
      hperm.subset (List.mem_append_left rest hp)
    have hchar : ∀ p ∈ r, p.2 < s.count ∧ p.1 = scoreAt s q p.2 := by
      intro p hp
      obtain ⟨i, hi, hpe⟩ := List.mem_map.mp (hmem p hp)
      subst hpe
      exact ⟨List.mem_range.mp hi, rfl⟩
    have hsnd : (scoresList s q).map Prod.snd = List.range s.count := by
      simp only [scoresList, List.map_map]
      show List.map (fun i => i) (List.range s.count) = List.range s.count
      simp
    have hpermsnd := hperm.map Prod.snd
    rw [List.map_append, hsnd] at hpermsnd
    have hndall : (r.map Prod.snd ++ rest.map Prod.snd).Nodup :=
      (hpermsnd.nodup_iff).mpr (List.nodup_range s.count)
    refine ⟨hlen, hsort, hchar, hndall.of_append_left, ?_,
      fun h => absurd h hz⟩
    intro p hp j hj hjn
    have hjm : (scoreAt s q j, j) ∈ scoresList s q :=
      List.mem_map.mpr ⟨j, List.mem_range.mpr hj, rfl⟩
    rcases List.mem_append.mp (hperm.symm.subset hjm) with hin | hin
    · exact absurd (List.mem_map.mpr ⟨(scoreAt s q j, j), hin, rfl⟩) hjn
    · exact hbd p hp _ hin

/-- C1 counterexample: with three identical embeddings (all scores equal)
the selection contract admits the result `[(1,2), (1,0), (1,1)]` — a list
the libstdc++ `partial_sort` actually produces here — which is not ordered
by descending score with ties broken by ascending index. -/
theorem C1_counterexample :
    SearchResult (qStore 3) [1] 3 [((1 : ℚ), 2), (1, 0), (1, 1)] ∧
    ¬ List.Pairwise (@ClaimOrder ℚ _) [((1 : ℚ), 2), (1, 0), (1, 1)] := by
  constructor
  · unfold SearchResult
    rw [if_neg (by simp [qStore]), if_neg (by simp [qStore])]
    have hsc : scoresList (qStore 3) [1] = [((1 : ℚ), 0), (1, 1), (1, 2)] := by
      norm_num [scoresList, scoreAt, qStore, unitEntry, defaultEntry, dotProd,
        List.range_succ]
    refine ⟨by simp [qStore], ?_, [], ?_, by simp⟩
    · show List.Pairwise _ _
      norm_num
    · rw [List.append_nil, hsc]
      show List.Perm ([((1 : ℚ), 2)] ++ [(1, 0), (1, 1)]) _
      have h := @List.perm_append_comm (ℚ × Nat) [((1 : ℚ), 2)]
        [(1, 0), (1, 1)]
      simpa using h
  · intro h
    have h1 := (List.pairwise_cons.mp h).1 ((1 : ℚ), 0) (by simp)
    rcases h1 with h1 | h1
    · exact absurd h1 (lt_irrefl _)
    · omega

/-- C1 witness: the amended search contract applied to a concrete
finalized two-document store. -/
theorem C1_search_contract_witness :
    (qStore 2).phase = Phase.SERVING ∧
    SearchResult (qStore 2) [1] 2 [((1 : ℚ), 0), (1, 1)] ∧
    ([((1 : ℚ), 0), (1, 1)].length = min 2 (qStore 2).count ∧
      SortedDesc [((1 : ℚ), 0), (1, 1)]) := by
  have hsr : SearchResult (qStore 2) [1] 2 [((1 : ℚ), 0), (1, 1)] := by
    unfold SearchResult
    rw [if_neg (by simp [qStore]), if_neg (by simp [qStore])]
    have hsc : scoresList (qStore 2) [1] = [((1 : ℚ), 0), (1, 1)] := by
      norm_num [scoresList, scoreAt, qStore, unitEntry, defaultEntry, dotProd,
        List.range_succ]
    refine ⟨by simp [qStore], ?_, [], ?_, by simp⟩
    · show List.Pairwise _ _
      norm_num
    · rw [List.append_nil, hsc]
  have h := C1_search_contract (qStore 2) [1] 2 [((1 : ℚ), 0), (1, 1)] rfl hsr
  exact ⟨rfl, hsr, h.1, h.2.1⟩

/-- C2 (amended): `finalize` scans every entry `i < count` and replaces its
embedding by `normalizeVec`: when the squared input norm exceeds `1e-10`
the vector is scaled by `1 / sqrt(sum)` and the result has squared L2 norm
exactly 1 — hence L2 norm within `1e-5` of 1 — and otherwise (including
tiny-but-nonzero inputs) the vector is left unchanged, not zeroed.
Entries at index `count` and beyond are untouched. -/
theorem C2_finalize_normalization (s : Store ℝ) (i : Nat) (v : List ℝ)
    (hph : s.phase = Phase.LOADING) (hi : i < s.count)
    (hev : (s.table i).emb = some v) :
    ((finalize Real.sqrt s).table i).emb = some (normalizeVec Real.sqrt v) ∧
    (normEps < sumSq v →
      normalizeVec Real.sqrt v =
        v.map (fun x => x * (1 / Real.sqrt (sumSq v))) ∧
      sumSq (normalizeVec Real.sqrt v) = 1 ∧
      |Real.sqrt (sumSq (normalizeVec Real.sqrt v)) - 1| ≤ 1 / 10 ^ 5) ∧
    (sumSq v ≤ normEps → normalizeVec Real.sqrt v = v) ∧
    (∀ j, s.count ≤ j → (finalize Real.sqrt s).table j = s.table j) := by
  have hphne : s.phase ≠ Phase.SERVING := by rw [hph]; simp
  have hmapform : normEps < sumSq v →
      normalizeVec Real.sqrt v =
        v.map (fun x => x * (1 / Real.sqrt (sumSq v))) := by
    intro h
    simp only [normalizeVec]
    rw [if_pos h]
  have hnorm1 : normEps < sumSq v →
      sumSq (normalizeVec Real.sqrt v) = 1 := by
    intro h
    have hS : (0 : ℝ) < sumSq v :=
      lt_trans (by norm_num [normEps]) h
    rw [hmapform h, sumSq_map_mul, div_mul_div_comm, one_mul,
      Real.mul_self_sqrt (le_of_lt hS), mul_one_div_cancel (ne_of_gt hS)]
  refine ⟨?_, fun h => ⟨hmapform h, hnorm1 h, ?_⟩, fun h => ?_,
    fun j hj => finalize_table_ge Real.sqrt s j hj⟩
  · rw [finalize_table_lt Real.sqrt s i hphne hi]
    simp [hev]
  · rw [hnorm1 h, Real.sqrt_one]
    norm_num
  · simp only [normalizeVec]
    rw [if_neg (not_lt.mpr h)]

/-- C2 counterexample: a store holding the single embedding `[1e-6]`
(squared norm `1e-12 ≤ 1e-10`).  After `finalize` the vector is unchanged:
it is not the zero vector and its L2 norm `1e-6` is not within `1e-5` of
1, contradicting the claim that every stored embedding ends up unit-norm
or zero. -/
theorem C2_counterexample :
    (((finalize Real.sqrt
        (⟨1, fun _ => ⟨some [1 / 1000000], [], 0, 0, 0, 0, 0, 0⟩, 1,
          Phase.LOADING⟩ : Store ℝ)).table 0).emb =
      some [(1 : ℝ) / 1000000]) ∧
    sumSq [(1 : ℝ) / 1000000] ≤ normEps ∧
    [(1 : ℝ) / 1000000] ≠ [(0 : ℝ)] ∧
    ¬ |Real.sqrt (sumSq [(1 : ℝ) / 1000000]) - 1| ≤ 1 / 10 ^ 5 := by
  have hss : sumSq [(1 : ℝ) / 1000000] = 1 / 1000000 * (1 / 1000000) := by
    simp [sumSq]
  have hle : sumSq [(1 : ℝ) / 1000000] ≤ normEps := by
    rw [hss]
    norm_num [normEps]
  have hnv : normalizeVec Real.sqrt [(1 : ℝ) / 1000000] =
      [(1 : ℝ) / 1000000] := by
    simp only [normalizeVec]
    rw [if_neg (not_lt.mpr hle)]
  refine ⟨?_, hle, by norm_num, ?_⟩
  · rw [finalize_table_lt Real.sqrt _ 0 (by simp) (by decide)]
    show Option.map (normalizeVec Real.sqrt) (some [(1 : ℝ) / 1000000]) =
      some [(1 : ℝ) / 1000000]
    rw [Option.map_some', hnv]
  · rw [hss, Real.sqrt_mul_self (by norm_num : (0 : ℝ) ≤ 1 / 1000000),
      abs_of_nonpos (by norm_num)]
    norm_num

/-- C2 witness: the amended normalization theorem applied to a store whose
single embedding is `[3/5, 4/5]` (squared norm 1 > 1e-10): after
`finalize` its squared norm is exactly 1. -/
theorem C2_finalize_normalization_witness :
    normEps < sumSq [(3 : ℝ) / 5, 4 / 5] ∧
    sumSq (normalizeVec Real.sqrt [(3 : ℝ) / 5, 4 / 5]) = 1 := by
  have hlt : normEps < sumSq [(3 : ℝ) / 5, 4 / 5] := by
    norm_num [sumSq, normEps]
  exact ⟨hlt,
    ((C2_finalize_normalization
      (⟨2, fun _ => ⟨some [(3 : ℝ) / 5, 4 / 5], [], 0, 0, 0, 0, 0, 0⟩, 1,
        Phase.LOADING⟩ : Store ℝ) 0 [(3 : ℝ) / 5, 4 / 5] rfl (by decide)
      rfl).2.1 hlt).2.1⟩

/-- C3: `add_document` on a SERVING store returns `INCORRECT_TYPE` and
leaves the store (in particular `size()`) unchanged, and `search` on a
LOADING store can only return the empty list. -/
theorem C3_phase_enforcement {α : Type} [LinearOrderedField α] :
    (∀ (s : Store α) (d : RawDoc α), s.phase = Phase.SERVING →
      add_document s d = (s, ErrorCode.INCORRECT_TYPE) ∧
      size (add_document s d).1 = size s) ∧
    (∀ (s : Store α) (q : List α) (k : Nat) (r : List (α × Nat)),
      s.phase = Phase.LOADING → SearchResult s q k r → r = []) := by
  constructor
  · intro s d h
    have hne : s.phase ≠ Phase.LOADING := by rw [h]; simp
    unfold add_document
    rw [if_pos hne]
    exact ⟨rfl, rfl⟩
  · intro s q k r h hr
    unfold SearchResult at hr
    rw [if_pos (by rw [h]; simp)] at hr
    exact hr

/-- C3 witness: the phase rules applied to a concrete finalized store and
a concrete loading store. -/
theorem C3_phase_enforcement_witness :
    (qStore 2).phase = Phase.SERVING ∧
    add_document (qStore 2) dWit = (qStore 2, ErrorCode.INCORRECT_TYPE) ∧
    ((initStore ℚ 1).phase = Phase.LOADING ∧
      SearchResult (initStore ℚ 1) [1] 5 [] ∧ ([] : List (ℚ × Nat)) = []) := by
  have hsr : SearchResult (initStore ℚ 1) [1] 5 ([] : List (ℚ × Nat)) := by
    unfold SearchResult
    rw [if_pos (by simp [initStore])]
  refine ⟨rfl, ((@C3_phase_enforcement ℚ _).1 (qStore 2) dWit rfl).1,
    rfl, hsr, (@C3_phase_enforcement ℚ _).2 (initStore ℚ 1) [1] 5 [] rfl hsr⟩

/-- C4: during LOADING, a decoded document whose embedding array is longer
than `dim` fails with `CAPACITY`, and one shorter than `dim` fails with
`INCORRECT_TYPE`; in both cases the store — hence `size()` — is
unchanged and no entry is published. -/
theorem C4_embedding_shape {α : Type} [LinearOrderedField α] (s : Store α)
    (d : RawDoc α) (hph : s.phase = Phase.LOADING) :
    (s.dim < d.embValues.length →
      add_document s d = (s, ErrorCode.CAPACITY)) ∧
    (d.embValues.length < s.dim →
      add_document s d = (s, ErrorCode.INCORRECT_TYPE)) := by
  constructor <;> intro h <;> unfold add_document <;>
    rw [if_neg (by simp [hph])]
  · have hp := parseEmbLoop_too_many s.dim d.embValues 0 (Nat.zero_le _)
      (by omega)
    rw [parse_embedding] at *
    rw [hp]
  · have hp := parseEmbLoop_too_few s.dim d.embValues 0 (by omega)
    rw [parse_embedding] at *
    rw [hp]

/-- C4 witness: dimension-1 store; a 2-element embedding fails with
`CAPACITY`, an empty embedding fails with `INCORRECT_TYPE`. -/
theorem C4_embedding_shape_witness :
    (initStore ℚ 1).phase = Phase.LOADING ∧
    (initStore ℚ 1).dim < dLong.embValues.length ∧
    dShort.embValues.length < (initStore ℚ 1).dim ∧
    add_document (initStore ℚ 1) dLong = (initStore ℚ 1, ErrorCode.CAPACITY) ∧
    add_document (initStore ℚ 1) dShort =
      (initStore ℚ 1, ErrorCode.INCORRECT_TYPE) :=
  ⟨rfl, by decide, by decide,
    (C4_embedding_shape (initStore ℚ 1) dLong rfl).1 (by decide),
    (C4_embedding_shape (initStore ℚ 1) dShort rfl).2 (by decide)⟩

/-- C5 (amended): `allocate` returns null exactly on the two early checks
— `align > 4096` or `size > CHUNK_SIZE`; a non-power-of-two align at most
4096 is only guarded by a debug assertion (abort), not a null return, see
the counterexample.  Every pointer returned under a power-of-two align in
`[1, 4096]` is aligned to it, and an allocation of exactly `CHUNK_SIZE`
at the default 64-byte alignment succeeds on a fresh (64-byte-aligned)
chunk. -/
theorem C5_allocate_contract :
    (∀ (a : Arena) (size align fb : Nat), MAX_ALIGN < align →
      allocate a size align fb = none) ∧
    (∀ (a : Arena) (size align fb : Nat), CHUNK_SIZE < size →
      allocate a size align fb = none) ∧
    (∀ (a : Arena) (size k fb p : Nat) (a' : Arena), 2 ^ k ≤ MAX_ALIGN →
      allocate a size (2 ^ k) fb = some (p, a') → p % 2 ^ k = 0) ∧
    (∀ b : Nat, b % 64 = 0 →
      allocate ⟨b, 0⟩ CHUNK_SIZE 64 0 = some (b, ⟨b, CHUNK_SIZE⟩)) := by
  refine ⟨?_, ?_, ?_, ?_⟩
  · intro a size align fb h
    unfold allocate
    rw [if_pos h]
  · intro a size align fb h
    unfold allocate
    by_cases h1 : MAX_ALIGN < align
    · rw [if_pos h1]
    · rw [if_neg h1, if_pos h]
  · intro a size k fb p a' hle h
    unfold allocate at h
    rw [if_neg (not_lt.mpr hle)] at h
    split at h
    · exact absurd h (by simp)
    · rcases allocStep_inv _ _ _ _ _ _ _ h with ⟨o, ho⟩ | hnext
      · rw [allocAttempt_some a.base a.off size (2 ^ k) p o ho]
        exact alignPad_mod (a.base + a.off) k
      · rcases allocStep_inv _ _ _ _ _ _ _ hnext with ⟨o, ho⟩ | hnone
        · rw [allocAttempt_some fb 0 size (2 ^ k) p o ho]
          exact alignPad_mod (fb + 0) k
        · exact absurd hnone (by simp)
  · intro b hb
    have ha : b &&& 63 = 0 := by
      have h := Nat.and_pow_two_sub_one_eq_mod b 6
      norm_num at h
      omega
    have hp : alignPad (b + 0) 64 = 0 := by
      simp only [alignPad]
      simp [ha]
    have hatt : allocAttempt b 0 CHUNK_SIZE 64 = some (b, CHUNK_SIZE) := by
      simp only [allocAttempt, hp]
      rw [if_neg (by omega)]
      simp
    unfold allocate
    rw [if_neg (by norm_num [MAX_ALIGN]), if_neg (lt_irrefl _)]
    exact allocStep_some _ _ _ _ _ _ _ hatt

/-- C5 counterexample: align 3 is not a power of two and lies in
`[1, 4096]`, yet `allocate` (release semantics: the power-of-two assert
compiled out) returns a non-null pointer instead of failing; with
assertions enabled the same call aborts rather than returning null.
Either way the claim's failure mode is wrong. -/
theorem C5_counterexample :
    ¬ alignAssertOk 3 ∧ 3 ≤ MAX_ALIGN ∧
    allocate ⟨0, 0⟩ 1 3 0 = some (0, ⟨0, 1⟩) := by
  refine ⟨(by decide : ¬ (0 < 3 ∧ 3 &&& (3 - 1) = 0)), by decide, by decide⟩

/-- C5 witness: the amended allocate contract applied at concrete inputs:
align 8192 is refused, `CHUNK_SIZE + 1` bytes are refused, a 16-byte
alignment request from offset 8 returns the aligned pointer 16, and a
fresh chunk at base 128 serves a full-chunk allocation. -/
theorem C5_allocate_contract_witness :
    allocate ⟨0, 0⟩ 1 8192 0 = none ∧
    allocate ⟨0, 0⟩ (CHUNK_SIZE + 1) 64 0 = none ∧
    allocate ⟨0, 8⟩ 4 16 0 = some (16, ⟨0, 20⟩) ∧ 16 % 16 = 0 ∧
    allocate ⟨128, 0⟩ CHUNK_SIZE 64 0 = some (128, ⟨128, CHUNK_SIZE⟩) := by
  have hsome : allocate ⟨0, 8⟩ 4 (2 ^ 4) 0 = some (16, ⟨0, 20⟩) := by decide
  refine ⟨C5_allocate_contract.1 ⟨0, 0⟩ 1 8192 0 (by decide),
    C5_allocate_contract.2.1 ⟨0, 0⟩ (CHUNK_SIZE + 1) 64 0 (by decide),
    hsome, ?_, C5_allocate_contract.2.2.2 128 (by decide)⟩
  have h16 := C5_allocate_contract.2.2.1 ⟨0, 8⟩ 4 4 0 16 ⟨0, 20⟩ (by decide)
    hsome
  exact h16

/-- C6: `finalize` is idempotent: a second call observes the SERVING flag
and is a no-op that succeeds, so every observable — the whole state,
`size()`, `is_finalized()`, every `get_entry` and every possible `search`
result — agrees between one and two calls. -/
theorem C6_finalize_idempotent {α : Type} [LinearOrderedField α]
    (sq : α → α) (s : Store α) :
    finalize sq (finalize sq s) = finalize sq s ∧
    is_finalized (finalize sq s) = true ∧
    size (finalize sq (finalize sq s)) = size (finalize sq s) ∧
    (∀ i, get_entry (finalize sq (finalize sq s)) i =
      get_entry (finalize sq s) i) ∧
    (∀ (q : List α) (k : Nat) (r : List (α × Nat)),
      SearchResult (finalize sq (finalize sq s)) q k r ↔
        SearchResult (finalize sq s) q k r) := by
  have h2 : finalize sq (finalize sq s) = finalize sq s :=
    finalize_of_serving sq _ (finalize_phase sq s)
  exact ⟨h2, by simp [is_finalized, finalize_phase], by rw [h2],
    fun i => by rw [h2], fun q k r => by rw [h2]⟩

/-- C7: a successful `add_document` publishes at index `size s` an entry
whose `get_entry`/`get_document` views return byte slices of the packed
allocation `[emb][id\0][text\0][meta\0]` that are byte-equal to the
inserted id, text and raw metadata JSON, stores the parsed embedding, and
grows `size()` by one. -/
theorem C7_roundtrip {α : Type} [LinearOrderedField α] (s : Store α)
    (d : RawDoc α) (s' : Store α)
    (h : add_document s d = (s', ErrorCode.SUCCESS)) :
    get_document s' (size s) = ⟨d.id, d.text, d.metaRaw⟩ ∧
    (get_entry s' (size s)).emb = some d.embValues ∧
    size s' = size s + 1 := by
  obtain ⟨hph, hlen, hcap, hs'⟩ := add_document_success s d s' h
  subst hs'
  refine ⟨?_, ?_, rfl⟩
  · show docOf (if s.count = s.count then
        mkEntry d.embValues d.id d.text d.metaRaw
      else s.table s.count) = ⟨d.id, d.text, d.metaRaw⟩
    rw [if_pos rfl, docOf_mkEntry]
  · show (if s.count = s.count then mkEntry d.embValues d.id d.text d.metaRaw
      else s.table s.count).emb = some d.embValues
    rw [if_pos rfl]
    rfl

/-- C7 witness: inserting a concrete document into a fresh store and
reading it back returns the same bytes. -/
theorem C7_roundtrip_witness :
    add_document (initStore ℚ 1) dWit =
      ((add_document (initStore ℚ 1) dWit).1, ErrorCode.SUCCESS) ∧
    get_document (add_document (initStore ℚ 1) dWit).1 (size (initStore ℚ 1)) =
      ⟨dWit.id, dWit.text, dWit.metaRaw⟩ := by
  have h : add_document (initStore ℚ 1) dWit =
      ((add_document (initStore ℚ 1) dWit).1, ErrorCode.SUCCESS) := rfl
  exact ⟨h, (C7_roundtrip (initStore ℚ 1) dWit _ h).1⟩

/-- C9: the directory loader is a no-op on a store that is already
SERVING, and on an empty enumeration (no `.json` files) it finalizes the
store and returns successfully — the store ends SERVING, the empty
directory is not an error. -/
theorem C9_loader_boundaries {α : Type} [LinearOrderedField α] (sq : α → α)
    (s : Store α) (files : List (JsonFile α)) (s' : Store α)
    (h : LoadDirectory sq s files s') :
    (is_finalized s = true → s' = s) ∧
    (is_finalized s = false →
      (files.filter (fun f => isJsonFile f.name)).isEmpty = true →
      s' = finalize sq s ∧ is_finalized s' = true) := by
  unfold LoadDirectory at h
  constructor
  · intro hf
    rw [if_pos hf] at h
    exact h
  · intro hf he
    rw [if_neg (by simp [hf]), if_pos he] at h
    refine ⟨h, ?_⟩
    rw [h]
    simp [is_finalized, finalize_phase]

/-- C9 witness: the loader boundary theorem applied to a fresh store and
an empty directory. -/
theorem C9_loader_boundaries_witness :
    LoadDirectory (fun x : ℚ => x) (initStore ℚ 1) []
      (finalize (fun x => x) (initStore ℚ 1)) ∧
    is_finalized (initStore ℚ 1) = false ∧
    is_finalized (finalize (fun x : ℚ => x) (initStore ℚ 1)) = true := by
  have hld : LoadDirectory (fun x : ℚ => x) (initStore ℚ 1) []
      (finalize (fun x => x) (initStore ℚ 1)) := by
    unfold LoadDirectory
    rw [if_neg (by simp [is_finalized, initStore]), if_pos (by simp)]
  exact ⟨hld, rfl,
    ((C9_loader_boundaries (fun x : ℚ => x) (initStore ℚ 1) []
      (finalize (fun x => x) (initStore ℚ 1)) hld).2 rfl rfl).2⟩

/-- C10: `get_entry` / `get_document` perform no bounds or phase check;
on a fresh store, and after any `add_document` or `finalize` (slots at or
above `count` are never written), every index `i` with
`size s ≤ i < 10^6` still holds the default-constructed entry: null
embedding pointer and empty id/text/metadata views, and the access never
fails (the model functions are total). -/
theorem C10_get_entry_unchecked {α : Type} [LinearOrderedField α] :
    (∀ dim : Nat, UnwrittenDefault (initStore α dim)) ∧
    (∀ (s : Store α) (d : RawDoc α), UnwrittenDefault s →
      UnwrittenDefault (add_document s d).1) ∧
    (∀ (sq : α → α) (s : Store α), UnwrittenDefault s →
      UnwrittenDefault (finalize sq s)) ∧
    (∀ (s : Store α) (i : Nat), UnwrittenDefault s → size s ≤ i →
      i < TABLE_CAPACITY →
      get_entry s i = defaultEntry α ∧ (get_entry s i).emb = none ∧
      get_document s i = ⟨[], [], []⟩) := by
  refine ⟨fun dim i _ => rfl, ?_, ?_, ?_⟩
  · intro s d hs
    unfold add_document
    split
    · exact hs
    · split
      · exact hs
      · split
        · exact hs
        · split
          · exact hs
          · intro i hi
            have hi' : s.count + 1 ≤ i := hi
            show (if i = s.count then _ else s.table i) = defaultEntry α
            rw [if_neg (by omega)]
            exact hs i (by omega)
  · intro sq s hs i hi
    have hi' : s.count ≤ i := by
      revert hi
      unfold finalize
      split
      · exact fun h => h
      · exact fun h => h
    rw [finalize_table_ge sq s i hi']
    exact hs i hi'
  · intro s i hs hle hcap
    have h := hs i hle
    refine ⟨h, ?_, ?_⟩
    · rw [show get_entry s i = s.table i from rfl, h]
      rfl
    · show docOf (s.table i) = ⟨[], [], []⟩
      rw [h]
      rfl

/-- C10 witness: the unchecked-access theorem applied to a fresh store of
dimension 2 at index 5. -/
theorem C10_get_entry_unchecked_witness :
    UnwrittenDefault (initStore ℚ 2) ∧ size (initStore ℚ 2) ≤ 5 ∧
    (5 : Nat) < TABLE_CAPACITY ∧
    get_entry (initStore ℚ 2) 5 = defaultEntry ℚ := by
  have hu : UnwrittenDefault (initStore ℚ 2) := fun i _ => rfl
  exact ⟨hu, by decide, by decide,
    ((@C10_get_entry_unchecked ℚ _).2.2.2 (initStore ℚ 2) 5 hu (by decide)
      (by decide)).1⟩

end NVS
